/-
Verification of the egui_tiles core layout engine against its specification.

The Rust sources verified here are:
  * src/container/linear.rs  (Shares, Linear, resize, shrink_shares, drop zones)
  * src/container/mod.rs     (Container dispatch)
  * src/tree.rs              (Tree, move_tile, dragged_id, tile_ui, simplify)

Numeric values that are `f32` in the source are modelled as exact rationals
(`ℚ`); the properties under study are stated by the specification to hold
exactly over exact arithmetic.  Hash maps keyed by `TileId` are modelled as
functions `TileId → Option _` (reads and writes are pointwise, which matches
map semantics; iteration order never matters for the verified operations).
-/

import Mathlib

set_option autoImplicit false

namespace EguiTiles

/-- Opaque tile identifier (`TileId` wraps a `u32` index; only equality is
used by the verified code). -/
abbrev TileId := ℕ

/-- `egui::Rect`, with exact coordinates. -/
structure RectQ where
  minx : ℚ
  miny : ℚ
  maxx : ℚ
  maxy : ℚ
  deriving DecidableEq, Repr

namespace RectQ

def width (r : RectQ) : ℚ := r.maxx - r.minx

def height (r : RectQ) : ℚ := r.maxy - r.miny

end RectQ

/-- The `shares` field of `Shares`: an `IntMap<TileId, f32>`, modelled as a
partial function. -/
def SharesM := TileId → Option ℚ

namespace Shares

/-- `impl Index<TileId> for Shares`: `self.shares.get(&id).unwrap_or(&1.0)`. -/
def get (s : SharesM) (t : TileId) : ℚ := (s t).getD 1

/-- Map insertion (also the effect of writing through `IndexMut`). -/
def set (s : SharesM) (t : TileId) (v : ℚ) : SharesM :=
  fun x => if x = t then some v else s x

/-- Map removal. -/
def removeKey (s : SharesM) (t : TileId) : SharesM :=
  fun x => if x = t then none else s x

/-- The empty shares map (`Shares::default()`). -/
def empty : SharesM := fun _ => none

/-- Accumulated shares of a list of children, reading through `Index`
(missing entries read as `1.0`), as in the loop of `Shares::split`. -/
def sumOver (s : SharesM) (l : List TileId) : ℚ := (l.map (get s)).sum

/-- `Shares::split`: split the given width based on the share of the
children.  `num_shares` is the accumulated shares; if it is exactly zero it
is replaced by `1.0`; each child then receives
`available_width * self[child] / num_shares`. -/
def split (s : SharesM) (children : List TileId) (availableWidth : ℚ) : List ℚ :=
  let numShares := sumOver s children
  let numShares := if numShares = 0 then 1 else numShares
  children.map (fun c => availableWidth * get s c / numShares)

/-- `Shares::replace_with`: `if let Some(share) = self.shares.remove(&remove)
{ self.shares.insert(new, share); }`. -/
def replaceWith (s : SharesM) (remove add : TileId) : SharesM :=
  match s remove with
  | some w => set (removeKey s remove) add w
  | none => s

@[simp] theorem get_set_self (s : SharesM) (t : TileId) (v : ℚ) :
    get (set s t v) t = v := by
  simp [get, set]

theorem get_set_ne (s : SharesM) (t x : TileId) (v : ℚ) (h : x ≠ t) :
    get (set s t v) x = get s x := by
  simp [get, set, h]

end Shares

/-- C1 counterexample: with two children both carrying an explicitly stored
weight of `0`, the weight sum is `0`; the code then divides by the substitute
divisor `1`, so each child receives `100 * 0 / 1 = 0` — not the uniform split
`[50, 50]` of the available extent that the claim requires. -/
theorem c1_split_zero_sum_counterexample :
    Shares.split (fun x => if x = 1 ∨ x = 2 then some 0 else none) [1, 2] 100 = [0, 0]
    ∧ Shares.split (fun x => if x = 1 ∨ x = 2 then some 0 else none) [1, 2] 100
      ≠ [100 / 2, 100 / 2] := by
  constructor
  · simp [Shares.split, Shares.sumOver, Shares.get]
  · simp [Shares.split, Shares.sumOver, Shares.get]
    norm_num

/-- C1 (amended): `Shares.split` gives each child
`available_extent * weight / sum_of_weights` whenever the accumulated weight
sum is nonzero; when the sum is exactly `0` only the divisor is replaced by
`1`, so each child receives `available_extent * weight`; in particular when
every child's weight is `0` every child receives `0` (not a uniform share of
the available extent). -/
theorem c1_split_formula (s : SharesM) (children : List TileId) (avail : ℚ) :
    (Shares.sumOver s children ≠ 0 →
      Shares.split s children avail
        = children.map (fun c => avail * Shares.get s c / Shares.sumOver s children))
    ∧ (Shares.sumOver s children = 0 →
      Shares.split s children avail
        = children.map (fun c => avail * Shares.get s c))
    ∧ ((∀ c ∈ children, Shares.get s c = 0) →
      Shares.split s children avail = children.map (fun _ => 0)) := by
  refine ⟨fun h => ?_, fun h => ?_, fun h => ?_⟩
  · simp [Shares.split, h]
  · simp [Shares.split, h]
  · have hsum : Shares.sumOver s children = 0 := by
      simp only [Shares.sumOver]
      rw [List.sum_eq_zero]
      intro x hx
      rcases List.mem_map.1 hx with ⟨c, hc, rfl⟩
      exact h c hc
    simp only [Shares.split, hsum]
    simp only [List.map_inj_left]
    intro c hc
    rw [h c hc]
    ring

/-- Closed witness for `c1_split_formula` at a concrete input. -/
theorem c1_split_formula_witness :
    Shares.split (fun x => if x = 1 then some 2 else none) [1, 2] 100
      = [1, 2].map (fun c =>
          100 * Shares.get (fun x => if x = 1 then some 2 else none) c
            / Shares.sumOver (fun x => if x = 1 then some 2 else none) [1, 2]) :=
  (c1_split_formula (fun x => if x = 1 then some 2 else none) [1, 2] 100).1
    (by norm_num [Shares.sumOver, Shares.get])

/-! ## `shrink_shares` (src/container/linear.rs, lines 388-424)

The loop body keeps the locals of the source:
`share    = shares[child]` (read through `Index`, so missing entries read `1`),
`spare_share   = (share - min_size_in_shares).at_least(0.0)`,
`shares_needed = (target_in_shares - total_shares_lost).at_least(0.0)`,
`shrink_by     = min(spare_share, shares_needed)`. -/

/-- The `for &child in children` loop of `shrink_shares`, threading the
mutated shares map and `total_shares_lost`. -/
def shrinkLoop (floorS targetS : ℚ) : List TileId → SharesM → ℚ → SharesM × ℚ
  | [], s, lost => (s, lost)
  | c :: cs, s, lost =>
    shrinkLoop floorS targetS cs
      (Shares.set s c
        (Shares.get s c - min (max (Shares.get s c - floorS) 0) (max (targetS - lost) 0)))
      (lost + min (max (Shares.get s c - floorS) 0) (max (targetS - lost) 0))

/-- `shares_per_point = total_shares / total_points` of `shrink_shares`. -/
def sharesPerPoint (shares : SharesM) (children : List TileId) (size : TileId → ℚ) : ℚ :=
  Shares.sumOver shares children / (children.map size).sum

/-- `min_size_in_shares = shares_per_point * behavior.min_size()`. -/
def minSizeInShares (minSize : ℚ) (shares : SharesM) (children : List TileId)
    (size : TileId → ℚ) : ℚ :=
  sharesPerPoint shares children size * minSize

/-- `target_in_shares = shares_per_point * target_in_points`. -/
def targetInShares (target : ℚ) (shares : SharesM) (children : List TileId)
    (size : TileId → ℚ) : ℚ :=
  sharesPerPoint shares children size * target

/-- `shrink_shares`: try to shrink the children by a total of
`target_in_points`, making sure no child gets smaller than its minimum size.
Returns the mutated shares map together with `total_shares_lost`. -/
def shrinkShares (minSize : ℚ) (shares : SharesM) (children : List TileId)
    (target : ℚ) (size : TileId → ℚ) : SharesM × ℚ :=
  if children.isEmpty then (shares, 0)
  else
    shrinkLoop (minSizeInShares minSize shares children size)
      (targetInShares target shares children size) children shares 0

/-- A child's available slack above the floor:
`(share - min_size_in_shares).at_least(0.0)`. -/
def slack (s : SharesM) (floorS : ℚ) (c : TileId) : ℚ :=
  max (Shares.get s c - floorS) 0

theorem shrinkLoop_get_of_not_mem (f t : ℚ) (cs : List TileId) :
    ∀ (s : SharesM) (l : ℚ) (x : TileId), x ∉ cs →
      Shares.get (shrinkLoop f t cs s l).1 x = Shares.get s x := by
  induction cs with
  | nil => intro s l x _; rfl
  | cons c cs ih =>
    intro s l x hx
    rw [List.mem_cons, not_or] at hx
    rw [shrinkLoop, ih _ _ _ hx.2, Shares.get_set_ne _ _ _ _ hx.1]

/-- Per-child effect of the loop: each child never drops below
`min(its share, floor)`, never grows, and is untouched when already at or
below the floor. -/
theorem shrinkLoop_get_mem (f t : ℚ) (cs : List TileId) :
    ∀ (s : SharesM) (l : ℚ), cs.Nodup → ∀ c ∈ cs,
      min (Shares.get s c) f ≤ Shares.get (shrinkLoop f t cs s l).1 c
      ∧ Shares.get (shrinkLoop f t cs s l).1 c ≤ Shares.get s c
      ∧ (Shares.get s c ≤ f → Shares.get (shrinkLoop f t cs s l).1 c = Shares.get s c) := by
  induction cs with
  | nil => intro s l _ c hc; cases hc
  | cons c0 cs ih =>
    intro s l hnd c hc
    rw [List.nodup_cons] at hnd
    rw [shrinkLoop]
    rcases List.mem_cons.1 hc with rfl | hc2
    · rw [shrinkLoop_get_of_not_mem _ _ _ _ _ _ hnd.1, Shares.get_set_self]
      set k := min (max (Shares.get s c - f) 0) (max (t - l) 0) with hkdef
      have hk0 : (0 : ℚ) ≤ k := le_min (le_max_right _ _) (le_max_right _ _)
      have hkle : k ≤ max (Shares.get s c - f) 0 := min_le_left _ _
      refine ⟨?_, by linarith, fun hle => ?_⟩
      · rcases le_or_lt (Shares.get s c) f with h | h
        · have hmax : max (Shares.get s c - f) 0 = 0 := max_eq_right (by linarith)
          rw [hmax] at hkle
          have hmin : min (Shares.get s c) f = Shares.get s c := min_eq_left h
          rw [hmin]; linarith
        · have hmax : max (Shares.get s c - f) 0 = Shares.get s c - f :=
            max_eq_left (by linarith)
          rw [hmax] at hkle
          have hmin : min (Shares.get s c) f = f := min_eq_right h.le
          rw [hmin]; linarith
      · have hmax : max (Shares.get s c - f) 0 = 0 := max_eq_right (by linarith)
        rw [hmax] at hkle
        linarith
    · have hne : c ≠ c0 := fun h => hnd.1 (h ▸ hc2)
      have := ih (Shares.set s c0
          (Shares.get s c0 - min (max (Shares.get s c0 - f) 0) (max (t - l) 0)))
        (l + min (max (Shares.get s c0 - f) 0) (max (t - l) 0)) hnd.2 c hc2
      rwa [Shares.get_set_ne _ _ _ _ hne] at this

/-- The accumulated loss never exceeds the requested total (in shares). -/
theorem shrinkLoop_snd_le (f t : ℚ) (cs : List TileId) :
    ∀ (s : SharesM) (l : ℚ), 0 ≤ l → l ≤ t →
      l ≤ (shrinkLoop f t cs s l).2 ∧ (shrinkLoop f t cs s l).2 ≤ t := by
  induction cs with
  | nil => intro s l h0 hlt; exact ⟨le_refl _, hlt⟩
  | cons c cs ih =>
    intro s l h0 hlt
    rw [shrinkLoop]
    set k := min (max (Shares.get s c - f) 0) (max (t - l) 0) with hkdef
    have hk0 : (0 : ℚ) ≤ k := le_min (le_max_right _ _) (le_max_right _ _)
    have hkneed : k ≤ max (t - l) 0 := min_le_right _ _
    have hneed : max (t - l) 0 = t - l := max_eq_left (by linarith)
    rw [hneed] at hkneed
    have := ih (Shares.set s c (Shares.get s c - k)) (l + k) (by linarith) (by linarith)
    exact ⟨le_trans (by linarith) this.1, this.2⟩

/-- When the chain cannot supply the remaining request, every child gives up
exactly its slack and the loop returns the initial loss plus the total slack. -/
theorem shrinkLoop_exhausted (f t : ℚ) (cs : List TileId) :
    ∀ (s : SharesM) (l : ℚ), cs.Nodup →
      l + (cs.map (slack s f)).sum ≤ t →
      (shrinkLoop f t cs s l).2 = l + (cs.map (slack s f)).sum := by
  induction cs with
  | nil => intro s l _ _; simp [shrinkLoop]
  | cons c cs ih =>
    intro s l hnd hsum
    rw [List.nodup_cons] at hnd
    rw [List.map_cons, List.sum_cons] at hsum
    have hslack0 : (0 : ℚ) ≤ (cs.map (slack s f)).sum := by
      apply List.sum_nonneg
      intro x hx
      rcases List.mem_map.1 hx with ⟨y, _, rfl⟩
      exact le_max_right _ _
    have hsp0 : (0 : ℚ) ≤ slack s f c := le_max_right _ _
    rw [shrinkLoop]
    have hmaxeq : max (Shares.get s c - f) 0 = slack s f c := rfl
    rw [hmaxeq]
    have hneed : max (t - l) 0 = t - l := max_eq_left (by linarith)
    rw [hneed]
    have hkval : min (slack s f c) (t - l) = slack s f c := min_eq_left (by linarith)
    rw [hkval]
    have hcong : cs.map (slack (Shares.set s c (Shares.get s c - slack s f c)) f)
        = cs.map (slack s f) := by
      apply List.map_congr_left
      intro x hx
      have hne : x ≠ c := fun h => hnd.1 (h ▸ hx)
      unfold slack
      rw [Shares.get_set_ne _ _ _ _ hne]
    rw [ih _ _ hnd.2 (by rw [hcong]; linarith)]
    rw [hcong, List.map_cons, List.sum_cons]
    ring

/-- The loop removes from the chain exactly what it reports as lost. -/
theorem shrinkLoop_sum_chain (f t : ℚ) (cs : List TileId) :
    ∀ (s : SharesM) (l : ℚ), cs.Nodup →
      (cs.map (Shares.get (shrinkLoop f t cs s l).1)).sum
        = (cs.map (Shares.get s)).sum - ((shrinkLoop f t cs s l).2 - l) := by
  induction cs with
  | nil => intro s l _; simp [shrinkLoop]
  | cons c cs ih =>
    intro s l hnd
    rw [List.nodup_cons] at hnd
    rw [shrinkLoop, List.map_cons, List.sum_cons, List.map_cons, List.sum_cons]
    rw [shrinkLoop_get_of_not_mem _ _ _ _ _ _ hnd.1, Shares.get_set_self]
    rw [ih _ _ hnd.2]
    have hcong : cs.map (Shares.get (Shares.set s c
        (Shares.get s c - min (max (Shares.get s c - f) 0) (max (t - l) 0))))
        = cs.map (Shares.get s) := by
      apply List.map_congr_left
      intro x hx
      exact Shares.get_set_ne _ _ _ _ (fun h => hnd.1 (h ▸ hx))
    rw [hcong]
    ring

/-- When every chain member is already at or below the floor, the loop loses
nothing and leaves every share (read through `Index`) unchanged. -/
theorem shrinkLoop_pinned (f t : ℚ) (cs : List TileId) :
    ∀ (s : SharesM) (l : ℚ), (∀ c ∈ cs, Shares.get s c ≤ f) →
      (shrinkLoop f t cs s l).2 = l
      ∧ ∀ x, Shares.get (shrinkLoop f t cs s l).1 x = Shares.get s x := by
  induction cs with
  | nil => intro s l _; exact ⟨rfl, fun _ => rfl⟩
  | cons c cs ih =>
    intro s l hfl
    have hc : Shares.get s c ≤ f := hfl c (List.mem_cons_self _ _)
    have hsp : max (Shares.get s c - f) 0 = 0 := max_eq_right (by linarith)
    rw [shrinkLoop, hsp]
    rw [min_comm, min_eq_right (le_max_right _ _)]
    have hgeteq : ∀ x, Shares.get (Shares.set s c (Shares.get s c - 0)) x = Shares.get s x := by
      intro x
      rcases eq_or_ne x c with rfl | hne
      · rw [sub_zero, Shares.get_set_self]
      · exact Shares.get_set_ne _ _ _ _ hne
    have hfl2 : ∀ c2 ∈ cs, Shares.get (Shares.set s c (Shares.get s c - 0)) c2 ≤ f := by
      intro c2 hc2
      rw [hgeteq c2]
      exact hfl c2 (List.mem_cons_of_mem _ hc2)
    have := ih (Shares.set s c (Shares.get s c - 0)) (l + 0) hfl2
    refine ⟨by rw [this.1, add_zero], fun x => by rw [this.2 x, hgeteq x]⟩

/-- C2: for every call of `shrink_shares` on a non-empty chain with positive
total pixel extent (with non-negative shares, a non-negative request, and
distinct chain members): (1) no child's share drops below
`min(share, shares_per_point * min_size)` — children at or below that floor
are untouched and no share grows; (2) the returned total never exceeds the
requested shrink `target_in_shares`; (3) when the chain cannot supply the
full request (total slack < request), the returned total equals the sum of
the children's slacks and is strictly below the request. -/
theorem c2_shrink_shares_bounds
    (minSize target : ℚ) (shares : SharesM) (children : List TileId) (size : TileId → ℚ)
    (hne : children ≠ [])
    (hpts : 0 < (children.map size).sum)
    (hnd : children.Nodup)
    (hsh : ∀ c ∈ children, 0 ≤ Shares.get shares c)
    (htg : 0 ≤ target) :
    (∀ c ∈ children,
        min (Shares.get shares c) (minSizeInShares minSize shares children size)
          ≤ Shares.get (shrinkShares minSize shares children target size).1 c
      ∧ Shares.get (shrinkShares minSize shares children target size).1 c
          ≤ Shares.get shares c
      ∧ (Shares.get shares c ≤ minSizeInShares minSize shares children size →
          Shares.get (shrinkShares minSize shares children target size).1 c
            = Shares.get shares c))
    ∧ (shrinkShares minSize shares children target size).2
        ≤ targetInShares target shares children size
    ∧ ((children.map (slack shares (minSizeInShares minSize shares children size))).sum
          < targetInShares target shares children size →
        (shrinkShares minSize shares children target size).2
          = (children.map
              (slack shares (minSizeInShares minSize shares children size))).sum
        ∧ (shrinkShares minSize shares children target size).2
          < targetInShares target shares children size) := by
  have hemp : children.isEmpty = false := by
    cases children with
    | nil => exact absurd rfl hne
    | cons a l => rfl
  have hunfold : shrinkShares minSize shares children target size
      = shrinkLoop (minSizeInShares minSize shares children size)
          (targetInShares target shares children size) children shares 0 := by
    rw [shrinkShares, hemp]
    rfl
  have hsum0 : 0 ≤ Shares.sumOver shares children := by
    apply List.sum_nonneg
    intro x hx
    rcases List.mem_map.1 hx with ⟨c, hc, rfl⟩
    exact hsh c hc
  have hspp : 0 ≤ sharesPerPoint shares children size :=
    div_nonneg hsum0 hpts.le
  have htS : 0 ≤ targetInShares target shares children size := mul_nonneg hspp htg
  rw [hunfold]
  refine ⟨fun c hc => shrinkLoop_get_mem _ _ children shares 0 hnd c hc,
    (shrinkLoop_snd_le _ _ children shares 0 le_rfl htS).2, fun hlt => ?_⟩
  have heq := shrinkLoop_exhausted (minSizeInShares minSize shares children size)
    (targetInShares target shares children size) children shares 0 hnd
    (by rw [zero_add]; exact hlt.le)
  rw [zero_add] at heq
  exact ⟨heq, by rw [heq]; exact hlt⟩

/-- Closed witness for `c2_shrink_shares_bounds`: chain `[1, 2]` with shares
`{1 ↦ 4, 2 ↦ 2}`, widths `40` and `20` points, minimum size `10`, request
`100` points.  `shares_per_point = 6/60 = 1/10`, floor `1` share, request
`10` shares, total slack `3 + 1 = 4 < 10`, so the call returns `4`. -/
theorem c2_shrink_shares_bounds_witness :
    (shrinkShares 10 (fun x => if x = 1 then some 4 else if x = 2 then some 2 else none)
      [1, 2] 100 (fun x => if x = 1 then 40 else 20)).2
      = ([1, 2].map (slack (fun x => if x = 1 then some 4 else if x = 2 then some 2 else none)
          (minSizeInShares 10
            (fun x => if x = 1 then some 4 else if x = 2 then some 2 else none)
            [1, 2] (fun x => if x = 1 then 40 else 20)))).sum :=
  ((c2_shrink_shares_bounds 10 100
      (fun x => if x = 1 then some 4 else if x = 2 then some 2 else none)
      [1, 2] (fun x => if x = 1 then 40 else 20)
      (by decide)
      (by norm_num)
      (by decide)
      (by decide)
      (by norm_num)).2.2
    (by norm_num [slack, minSizeInShares, targetInShares, sharesPerPoint,
        Shares.sumOver, Shares.get])).1

/-! ## `resize_interaction` drag step (src/container/linear.rs, lines 346-384) -/

theorem sumOver_append (s : SharesM) (l1 l2 : List TileId) :
    Shares.sumOver s (l1 ++ l2) = Shares.sumOver s l1 + Shares.sumOver s l2 := by
  simp [Shares.sumOver]

theorem sumOver_reverse (s : SharesM) (l : List TileId) :
    Shares.sumOver s l.reverse = Shares.sumOver s l := by
  simp [Shares.sumOver, List.map_reverse, List.sum_reverse]

theorem sumOver_congr (s1 s2 : SharesM) (l : List TileId)
    (h : ∀ x ∈ l, Shares.get s1 x = Shares.get s2 x) :
    Shares.sumOver s1 l = Shares.sumOver s2 l := by
  unfold Shares.sumOver
  rw [List.map_congr_left h]

theorem sumOver_set_of_not_mem (s : SharesM) (l : List TileId) (x : TileId) (v : ℚ)
    (hx : x ∉ l) :
    Shares.sumOver (Shares.set s x v) l = Shares.sumOver s l :=
  sumOver_congr _ _ _ (fun y hy => Shares.get_set_ne _ _ _ _ (fun h => hx (h ▸ hy)))

theorem sumOver_set_mem (s : SharesM) (l : List TileId) (x : TileId) (v : ℚ)
    (hnd : l.Nodup) (hx : x ∈ l) :
    Shares.sumOver (Shares.set s x v) l = Shares.sumOver s l - Shares.get s x + v := by
  induction l with
  | nil => cases hx
  | cons a l ih =>
    rw [List.nodup_cons] at hnd
    rcases List.mem_cons.1 hx with heq | hmem
    · subst heq
      unfold Shares.sumOver
      rw [List.map_cons, List.sum_cons, List.map_cons, List.sum_cons, Shares.get_set_self]
      have : Shares.sumOver (Shares.set s x v) l = Shares.sumOver s l :=
        sumOver_set_of_not_mem _ _ _ _ hnd.1
      unfold Shares.sumOver at this
      rw [this]
      ring
    · have hne : a ≠ x := fun h => hnd.1 (h ▸ hmem)
      unfold Shares.sumOver
      rw [List.map_cons, List.sum_cons, List.map_cons, List.sum_cons,
        Shares.get_set_ne _ _ _ _ hne]
      have := ih hnd.2 hmem
      unfold Shares.sumOver at this
      rw [this]
      ring

theorem shrinkShares_nil (minSize target : ℚ) (shares : SharesM) (size : TileId → ℚ) :
    shrinkShares minSize shares [] target size = (shares, 0) := rfl

theorem shrinkShares_cons (minSize target : ℚ) (shares : SharesM) (a : TileId)
    (l : List TileId) (size : TileId → ℚ) :
    shrinkShares minSize shares (a :: l) target size
      = shrinkLoop (minSizeInShares minSize shares (a :: l) size)
          (targetInShares target shares (a :: l) size) (a :: l) shares 0 := rfl

theorem shrinkShares_get_of_not_mem (minSize target : ℚ) (shares : SharesM)
    (chain : List TileId) (size : TileId → ℚ) (x : TileId) (hx : x ∉ chain) :
    Shares.get (shrinkShares minSize shares chain target size).1 x = Shares.get shares x := by
  cases chain with
  | nil => rfl
  | cons a l =>
    rw [shrinkShares_cons]
    exact shrinkLoop_get_of_not_mem _ _ _ _ _ _ hx

theorem shrinkShares_sum_chain (minSize target : ℚ) (shares : SharesM)
    (chain : List TileId) (size : TileId → ℚ) (hnd : chain.Nodup) :
    Shares.sumOver (shrinkShares minSize shares chain target size).1 chain
      = Shares.sumOver shares chain - (shrinkShares minSize shares chain target size).2 := by
  cases chain with
  | nil => simp [shrinkShares_nil, Shares.sumOver]
  | cons a l =>
    rw [shrinkShares_cons]
    have := shrinkLoop_sum_chain (minSizeInShares minSize shares (a :: l) size)
      (targetInShares target shares (a :: l) size) (a :: l) shares 0 hnd
    unfold Shares.sumOver
    rw [this]
    ring

theorem shrinkShares_pinned (minSize target : ℚ) (shares : SharesM)
    (chain : List TileId) (size : TileId → ℚ)
    (hfl : ∀ c ∈ chain, Shares.get shares c ≤ minSizeInShares minSize shares chain size) :
    (shrinkShares minSize shares chain target size).2 = 0
    ∧ ∀ x, Shares.get (shrinkShares minSize shares chain target size).1 x
        = Shares.get shares x := by
  cases chain with
  | nil => exact ⟨rfl, fun _ => rfl⟩
  | cons a l =>
    rw [shrinkShares_cons]
    exact shrinkLoop_pinned _ _ _ _ _ hfl

/-- The `splitter_response.dragged()` branch of `resize_interaction`
(src/container/linear.rs, lines 363-377).  For `dx < 0` the chain
`children[0..=i]` is walked in reverse and `shares[right]` grows by the
amount actually shrunk; otherwise the chain `children[i+1..]` is shrunk and
`shares[left]` grows.  At the call site `left = children[i]` and
`right = children[i+1]`, and `dx.abs()` is the requested amount in points. -/
def resizeDragStep (minSize : ℚ) (shares : SharesM) (children : List TileId)
    (left right : TileId) (dx : ℚ) (i : ℕ) (size : TileId → ℚ) : SharesM :=
  if dx < 0 then
    Shares.set (shrinkShares minSize shares ((children.take (i + 1)).reverse) (-dx) size).1
      right
      (Shares.get (shrinkShares minSize shares ((children.take (i + 1)).reverse) (-dx) size).1
          right
        + (shrinkShares minSize shares ((children.take (i + 1)).reverse) (-dx) size).2)
  else
    Shares.set (shrinkShares minSize shares (children.drop (i + 1)) dx size).1 left
      (Shares.get (shrinkShares minSize shares (children.drop (i + 1)) dx size).1 left
        + (shrinkShares minSize shares (children.drop (i + 1)) dx size).2)

theorem drop_cons_getD (d : TileId) :
    ∀ (l : List TileId) (k : ℕ), k < l.length →
      l.drop k = l.getD k d :: l.drop (k + 1) := by
  intro l
  induction l with
  | nil => intro k hk; cases hk
  | cons a l ih =>
    intro k hk
    cases k with
    | zero => rfl
    | succ k =>
      have := ih k (by simpa using Nat.lt_of_succ_lt_succ hk)
      simpa using this

theorem getD_mem_take (d : TileId) :
    ∀ (l : List TileId) (k : ℕ), k < l.length → l.getD k d ∈ l.take (k + 1) := by
  intro l
  induction l with
  | nil => intro k hk; cases hk
  | cons a l ih =>
    intro k hk
    cases k with
    | zero => simp
    | succ k =>
      have := ih k (by simpa using Nat.lt_of_succ_lt_succ hk)
      simp only [List.getD_cons_succ, List.take_succ_cons, List.mem_cons]
      exact Or.inr this

/-- C6: for every drag step on a Linear resize handle (`left = children[i]`,
`right = children[i+1]`, distinct children): the grower's share increases by
exactly the total removed from the shrink chain; the sum of all children's
shares is unchanged; and once every chain member is at or below the
floor `shares_per_point * min_size`, a further drag leaves every share
unchanged. -/
theorem c6_resize_drag_step
    (minSize dx : ℚ) (shares : SharesM) (children : List TileId)
    (left right : TileId) (i : ℕ) (size : TileId → ℚ)
    (hnd : children.Nodup)
    (hlen : i + 1 < children.length)
    (hleft : children.getD i 0 = left)
    (hright : children.getD (i + 1) 0 = right) :
    Shares.sumOver (resizeDragStep minSize shares children left right dx i size) children
      = Shares.sumOver shares children
    ∧ (dx < 0 →
        Shares.get (resizeDragStep minSize shares children left right dx i size) right
          = Shares.get shares right
            + (Shares.sumOver shares ((children.take (i + 1)).reverse)
               - Shares.sumOver (resizeDragStep minSize shares children left right dx i size)
                   ((children.take (i + 1)).reverse)))
    ∧ (¬ dx < 0 →
        Shares.get (resizeDragStep minSize shares children left right dx i size) left
          = Shares.get shares left
            + (Shares.sumOver shares (children.drop (i + 1))
               - Shares.sumOver (resizeDragStep minSize shares children left right dx i size)
                   (children.drop (i + 1))))
    ∧ (dx < 0 →
        (∀ c ∈ (children.take (i + 1)).reverse,
            Shares.get shares c
              ≤ minSizeInShares minSize shares ((children.take (i + 1)).reverse) size) →
        ∀ x, Shares.get (resizeDragStep minSize shares children left right dx i size) x
          = Shares.get shares x)
    ∧ (¬ dx < 0 →
        (∀ c ∈ children.drop (i + 1),
            Shares.get shares c
              ≤ minSizeInShares minSize shares (children.drop (i + 1)) size) →
        ∀ x, Shares.get (resizeDragStep minSize shares children left right dx i size) x
          = Shares.get shares x) := by
  have hnd2 : (children.take (i + 1) ++ children.drop (i + 1)).Nodup := by
    rw [List.take_append_drop]
    exact hnd
  obtain ⟨hndtk, hnddp, hdisj⟩ := List.nodup_append.1 hnd2
  have hi : i < children.length := Nat.lt_of_succ_lt hlen
  have hlefttk : left ∈ children.take (i + 1) := hleft ▸ getD_mem_take 0 children i hi
  have hdropc : children.drop (i + 1) = right :: children.drop (i + 2) := by
    have := drop_cons_getD 0 children (i + 1) hlen
    rw [hright] at this
    exact this
  have hrightdp : right ∈ children.drop (i + 1) := by
    rw [hdropc]
    exact List.mem_cons_self _ _
  have hrightntk : right ∉ children.take (i + 1) := fun h => hdisj h hrightdp
  have hleftndp : left ∉ children.drop (i + 1) := fun h => hdisj hlefttk h
  by_cases hdx : dx < 0
  · -- Expand right, shrink the reversed chain children[0..=i].
    have hres : resizeDragStep minSize shares children left right dx i size
        = Shares.set
            (shrinkShares minSize shares ((children.take (i + 1)).reverse) (-dx) size).1 right
            (Shares.get
                (shrinkShares minSize shares ((children.take (i + 1)).reverse) (-dx) size).1
                right
              + (shrinkShares minSize shares ((children.take (i + 1)).reverse) (-dx) size).2) := by
      rw [resizeDragStep, if_pos hdx]
    rw [hres]
    set P := shrinkShares minSize shares ((children.take (i + 1)).reverse) (-dx) size with hP
    have hndchain : ((children.take (i + 1)).reverse).Nodup := List.nodup_reverse.2 hndtk
    have hrightnch : right ∉ (children.take (i + 1)).reverse := by
      rw [List.mem_reverse]
      exact hrightntk
    have hframe : ∀ x, x ∉ (children.take (i + 1)).reverse →
        Shares.get P.1 x = Shares.get shares x := fun x hx =>
      shrinkShares_get_of_not_mem _ _ _ _ _ _ hx
    have hchain_sum : Shares.sumOver P.1 ((children.take (i + 1)).reverse)
        = Shares.sumOver shares ((children.take (i + 1)).reverse) - P.2 :=
      shrinkShares_sum_chain _ _ _ _ _ hndchain
    have hB : Shares.get (Shares.set P.1 right (Shares.get P.1 right + P.2)) right
        = Shares.get shares right
          + (Shares.sumOver shares ((children.take (i + 1)).reverse)
             - Shares.sumOver (Shares.set P.1 right (Shares.get P.1 right + P.2))
                 ((children.take (i + 1)).reverse)) := by
      rw [Shares.get_set_self, sumOver_set_of_not_mem _ _ _ _ hrightnch, hchain_sum,
        hframe right hrightnch]
      ring
    refine ⟨?_, fun _ => hB, fun h => absurd hdx h, fun _ hpin x => ?_, fun h => absurd hdx h⟩
    · -- total share sum unchanged
      conv_lhs => rw [← List.take_append_drop (i + 1) children]
      conv_rhs => rw [← List.take_append_drop (i + 1) children]
      rw [sumOver_append, sumOver_append]
      have htkpart : Shares.sumOver (Shares.set P.1 right (Shares.get P.1 right + P.2))
          (children.take (i + 1)) = Shares.sumOver shares (children.take (i + 1)) - P.2 := by
        rw [sumOver_set_of_not_mem _ _ _ _ hrightntk]
        have h1 : Shares.sumOver P.1 (children.take (i + 1))
            = Shares.sumOver P.1 ((children.take (i + 1)).reverse) :=
          (sumOver_reverse _ _).symm
        have h2 : Shares.sumOver shares ((children.take (i + 1)).reverse)
            = Shares.sumOver shares (children.take (i + 1)) := sumOver_reverse _ _
        rw [h1, hchain_sum, h2]
      have hdppart : Shares.sumOver (Shares.set P.1 right (Shares.get P.1 right + P.2))
          (children.drop (i + 1)) = Shares.sumOver shares (children.drop (i + 1)) + P.2 := by
        rw [sumOver_set_mem _ _ _ _ hnddp hrightdp]
        have h1 : Shares.sumOver P.1 (children.drop (i + 1))
            = Shares.sumOver shares (children.drop (i + 1)) := by
          apply sumOver_congr
          intro x hx
          exact hframe x (fun hmem => hdisj (List.mem_reverse.1 hmem) hx)
        rw [h1]
        ring
      rw [htkpart, hdppart]
      ring
    · -- chain pinned at the floor: no effect at all
      have hpinned := shrinkShares_pinned minSize (-dx) shares
        ((children.take (i + 1)).reverse) size hpin
      rcases eq_or_ne x right with rfl | hne
      · rw [Shares.get_set_self, hpinned.1, hpinned.2 x, add_zero]
      · rw [Shares.get_set_ne _ _ _ _ hne, hpinned.2 x]
  · -- Expand left, shrink the chain children[i+1..].
    have hres : resizeDragStep minSize shares children left right dx i size
        = Shares.set (shrinkShares minSize shares (children.drop (i + 1)) dx size).1 left
            (Shares.get (shrinkShares minSize shares (children.drop (i + 1)) dx size).1 left
              + (shrinkShares minSize shares (children.drop (i + 1)) dx size).2) := by
      rw [resizeDragStep, if_neg hdx]
    rw [hres]
    set P := shrinkShares minSize shares (children.drop (i + 1)) dx size with hP
    have hframe : ∀ x, x ∉ children.drop (i + 1) →
        Shares.get P.1 x = Shares.get shares x := fun x hx =>
      shrinkShares_get_of_not_mem _ _ _ _ _ _ hx
    have hchain_sum : Shares.sumOver P.1 (children.drop (i + 1))
        = Shares.sumOver shares (children.drop (i + 1)) - P.2 :=
      shrinkShares_sum_chain _ _ _ _ _ hnddp
    have hC : Shares.get (Shares.set P.1 left (Shares.get P.1 left + P.2)) left
        = Shares.get shares left
          + (Shares.sumOver shares (children.drop (i + 1))
             - Shares.sumOver (Shares.set P.1 left (Shares.get P.1 left + P.2))
                 (children.drop (i + 1))) := by
      rw [Shares.get_set_self, sumOver_set_of_not_mem _ _ _ _ hleftndp, hchain_sum,
        hframe left hleftndp]
      ring
    refine ⟨?_, fun h => absurd h hdx, fun _ => hC, fun h => absurd h hdx, fun _ hpin x => ?_⟩
    · conv_lhs => rw [← List.take_append_drop (i + 1) children]
      conv_rhs => rw [← List.take_append_drop (i + 1) children]
      rw [sumOver_append, sumOver_append]
      have htkpart : Shares.sumOver (Shares.set P.1 left (Shares.get P.1 left + P.2))
          (children.take (i + 1)) = Shares.sumOver shares (children.take (i + 1)) + P.2 := by
        rw [sumOver_set_mem _ _ _ _ hndtk hlefttk]
        have h1 : Shares.sumOver P.1 (children.take (i + 1))
            = Shares.sumOver shares (children.take (i + 1)) := by
          apply sumOver_congr
          intro x hx
          exact hframe x (fun hmem => hdisj hx hmem)
        rw [h1, hframe left hleftndp]
        ring
      have hdppart : Shares.sumOver (Shares.set P.1 left (Shares.get P.1 left + P.2))
          (children.drop (i + 1)) = Shares.sumOver shares (children.drop (i + 1)) - P.2 := by
        rw [sumOver_set_of_not_mem _ _ _ _ hleftndp, hchain_sum]
      rw [htkpart, hdppart]
      ring
    · have hpinned := shrinkShares_pinned minSize dx shares (children.drop (i + 1)) size hpin
      rcases eq_or_ne x left with rfl | hne
      · rw [Shares.get_set_self, hpinned.1, hpinned.2 x, add_zero]
      · rw [Shares.get_set_ne _ _ _ _ hne, hpinned.2 x]

/-- Closed witness for `c6_resize_drag_step`: children `[1, 2, 3]`, handle
`i = 0`, so `left = 1`, `right = 2`. -/
theorem c6_resize_drag_step_witness :
    Shares.sumOver
        (resizeDragStep 10 (fun _ => none) [1, 2, 3] 1 2 (-5) 0 (fun _ => 100)) [1, 2, 3]
      = Shares.sumOver (fun _ => none) [1, 2, 3] :=
  (c6_resize_drag_step 10 (-5) (fun _ => none) [1, 2, 3] 1 2 0 (fun _ => 100)
    (by decide) (by decide) (by decide) (by decide)).1

/-! ## `Linear::layout_horizontal` / `layout_vertical` (linear.rs, lines 149-191) -/

/-- `LinearDir`: the direction of a `Linear` container. -/
inductive LinearDir where
  | Horizontal
  | Vertical
  deriving DecidableEq, Repr

/-- The cursor loop of `layout_horizontal`: `x` starts at `rect.min.x`; each
child gets `Rect::from_min_size(pos2(x, rect.min.y), vec2(width, rect.height()))`
and `x` advances by `width + gap_width`. -/
def layoutCursorH (miny maxy gap : ℚ) : ℚ → List ℚ → List RectQ
  | _, [] => []
  | x, w :: ws => RectQ.mk x miny (x + w) maxy :: layoutCursorH miny maxy gap (x + w + gap) ws

/-- The cursor loop of `layout_vertical`. -/
def layoutCursorV (minx maxx gap : ℚ) : ℚ → List ℚ → List RectQ
  | _, [] => []
  | y, h :: hs => RectQ.mk minx y maxx (y + h) :: layoutCursorV minx maxx gap (y + h + gap) hs

/-- `available_width = (rect.width() - total_gap_width).at_least(0.0)` with
`total_gap_width = gap_width * num_gaps` and `num_gaps = len.saturating_sub(1)`. -/
def availableWidth (children : List TileId) (gap : ℚ) (rect : RectQ) : ℚ :=
  max (RectQ.width rect - gap * ((children.length - 1 : ℕ) : ℚ)) 0

/-- `available_height` of `layout_vertical`. -/
def availableHeight (children : List TileId) (gap : ℚ) (rect : RectQ) : ℚ :=
  max (RectQ.height rect - gap * ((children.length - 1 : ℕ) : ℚ)) 0

/-- `Linear::layout_horizontal`, restricted to the rectangles it assigns to
the children (the recursion into `tiles.layout_tile` is outside this model). -/
def layoutHorizontal (shares : SharesM) (children : List TileId) (gap : ℚ)
    (rect : RectQ) : List RectQ :=
  layoutCursorH rect.miny rect.maxy gap rect.minx
    (Shares.split shares children (availableWidth children gap rect))

/-- `Linear::layout_vertical`, restricted to the rectangles it assigns. -/
def layoutVertical (shares : SharesM) (children : List TileId) (gap : ℚ)
    (rect : RectQ) : List RectQ :=
  layoutCursorV rect.minx rect.maxx gap rect.miny
    (Shares.split shares children (availableHeight children gap rect))

theorem sum_map_mul (a : ℚ) (f : TileId → ℚ) (l : List TileId) :
    (l.map (fun c => a * f c)).sum = a * (l.map f).sum := by
  induction l with
  | nil => simp
  | cons x l ih => simp [ih]; ring

/-- When the weight sum is nonzero, the split extents sum to exactly the
available extent. -/
theorem split_sum (s : SharesM) (children : List TileId) (avail : ℚ)
    (h : Shares.sumOver s children ≠ 0) :
    (Shares.split s children avail).sum = avail := by
  simp only [Shares.split]
  rw [if_neg h]
  have hcong : children.map (fun c => avail * Shares.get s c / Shares.sumOver s children)
      = children.map (fun c => (avail / Shares.sumOver s children) * Shares.get s c) := by
    apply List.map_congr_left
    intro c _
    ring
  rw [hcong, sum_map_mul]
  have : (children.map (Shares.get s)).sum = Shares.sumOver s children := rfl
  rw [this, div_mul_cancel₀ _ h]

theorem layoutCursorH_getD (miny maxy gap : ℚ) :
    ∀ (ws : List ℚ) (x : ℚ) (k : ℕ), k < ws.length →
      (layoutCursorH miny maxy gap x ws).getD k ⟨0, 0, 0, 0⟩
        = ⟨x + (ws.take k).sum + gap * k, miny,
           x + (ws.take k).sum + gap * k + ws.getD k 0, maxy⟩ := by
  intro ws
  induction ws with
  | nil => intro x k hk; cases hk
  | cons w ws ih =>
    intro x k hk
    cases k with
    | zero =>
      show RectQ.mk x miny (x + w) maxy = _
      simp
    | succ k =>
      have hk2 : k < ws.length := Nat.lt_of_succ_lt_succ hk
      show (layoutCursorH miny maxy gap (x + w + gap) ws).getD k ⟨0, 0, 0, 0⟩ = _
      rw [ih (x + w + gap) k hk2]
      simp only [List.take_succ_cons, List.sum_cons, List.getD_cons_succ]
      congr 1 <;> push_cast <;> ring

theorem layoutCursorV_getD (minx maxx gap : ℚ) :
    ∀ (hs : List ℚ) (y : ℚ) (k : ℕ), k < hs.length →
      (layoutCursorV minx maxx gap y hs).getD k ⟨0, 0, 0, 0⟩
        = ⟨minx, y + (hs.take k).sum + gap * k,
           maxx, y + (hs.take k).sum + gap * k + hs.getD k 0⟩ := by
  intro hs
  induction hs with
  | nil => intro y k hk; cases hk
  | cons h hs ih =>
    intro y k hk
    cases k with
    | zero =>
      show RectQ.mk minx y maxx (y + h) = _
      simp
    | succ k =>
      have hk2 : k < hs.length := Nat.lt_of_succ_lt_succ hk
      show (layoutCursorV minx maxx gap (y + h + gap) hs).getD k ⟨0, 0, 0, 0⟩ = _
      rw [ih (y + h + gap) k hk2]
      simp only [List.take_succ_cons, List.sum_cons, List.getD_cons_succ]
      congr 1 <;> push_cast <;> ring

/-- C5 counterexample: two default-weight children (weights `1`, positive),
gap `200`, rectangle `[0,100] × [0,50]`.  The total gap (`200`) exceeds the
width (`100`); the clamp `.at_least(0.0)` makes the available width `0`, so
both extents are `0` and extents + 1 gap sum to `200 ≠ 100` — the claimed
exact identity fails for this gap/rectangle. -/
theorem c5_layout_sum_counterexample :
    (Shares.split Shares.empty [1, 2]
        (availableWidth [1, 2] 200 ⟨0, 0, 100, 50⟩)).sum
      + 200 * (([1, 2].length - 1 : ℕ) : ℚ) = 200
    ∧ RectQ.width ⟨0, 0, 100, 50⟩ = 100
    ∧ (200 : ℚ) ≠ 100 := by
  refine ⟨?_, by norm_num [RectQ.width], by norm_num⟩
  norm_num [Shares.split, Shares.sumOver, Shares.get, Shares.empty, availableWidth,
    RectQ.width]

/-- C5 (amended): when the total gap fits in the container's extent along
the primary axis, the allocated extents plus `(N-1)` gaps sum exactly to
that primary-axis extent — for a horizontal container this depends only on
the width, for a vertical one only on the height; and unconditionally each
child is placed at the running cursor (`min + sum of previous extents +
k gaps`), spanning its extent along the primary axis and the full rectangle
on the cross axis. -/
theorem c5_layout_sum_and_positions
    (shares : SharesM) (children : List TileId) (gap : ℚ) (rect : RectQ)
    (hne : children ≠ [])
    (hpos : ∀ c ∈ children, 0 < Shares.get shares c) :
    (gap * ((children.length - 1 : ℕ) : ℚ) ≤ RectQ.width rect →
      (Shares.split shares children (availableWidth children gap rect)).sum
        + gap * ((children.length - 1 : ℕ) : ℚ) = RectQ.width rect)
    ∧ (∀ k, k < children.length →
        (layoutHorizontal shares children gap rect).getD k ⟨0, 0, 0, 0⟩
          = ⟨rect.minx
                + ((Shares.split shares children (availableWidth children gap rect)).take k).sum
                + gap * k,
             rect.miny,
             rect.minx
                + ((Shares.split shares children (availableWidth children gap rect)).take k).sum
                + gap * k
                + (Shares.split shares children (availableWidth children gap rect)).getD k 0,
             rect.maxy⟩)
    ∧ (gap * ((children.length - 1 : ℕ) : ℚ) ≤ RectQ.height rect →
      (Shares.split shares children (availableHeight children gap rect)).sum
        + gap * ((children.length - 1 : ℕ) : ℚ) = RectQ.height rect)
    ∧ (∀ k, k < children.length →
        (layoutVertical shares children gap rect).getD k ⟨0, 0, 0, 0⟩
          = ⟨rect.minx,
             rect.miny
                + ((Shares.split shares children (availableHeight children gap rect)).take k).sum
                + gap * k,
             rect.maxx,
             rect.miny
                + ((Shares.split shares children (availableHeight children gap rect)).take k).sum
                + gap * k
                + (Shares.split shares children (availableHeight children gap rect)).getD k 0⟩) := by
  have hsumpos : 0 < Shares.sumOver shares children := by
    apply List.sum_pos
    · intro x hx
      rcases List.mem_map.1 hx with ⟨c, hc, rfl⟩
      exact hpos c hc
    · simpa using hne
  have hlenW : (Shares.split shares children (availableWidth children gap rect)).length
      = children.length := by
    unfold Shares.split
    simp
  have hlenH : (Shares.split shares children (availableHeight children gap rect)).length
      = children.length := by
    unfold Shares.split
    simp
  refine ⟨fun hgw => ?_, fun k hk => ?_, fun hgh => ?_, fun k hk => ?_⟩
  · have hWa : availableWidth children gap rect
        = RectQ.width rect - gap * ((children.length - 1 : ℕ) : ℚ) := by
      unfold availableWidth
      exact max_eq_left (by linarith)
    rw [split_sum _ _ _ hsumpos.ne', hWa]
    ring
  · exact layoutCursorH_getD rect.miny rect.maxy gap _ rect.minx k (hlenW ▸ hk)
  · have hHa : availableHeight children gap rect
        = RectQ.height rect - gap * ((children.length - 1 : ℕ) : ℚ) := by
      unfold availableHeight
      exact max_eq_left (by linarith)
    rw [split_sum _ _ _ hsumpos.ne', hHa]
    ring
  · exact layoutCursorV_getD rect.minx rect.maxx gap _ rect.miny k (hlenH ▸ hk)

/-- Closed witness for `c5_layout_sum_and_positions`: scenario 1 of the
spec, three default-weight panes in a `300`-wide, zero-gap rectangle that is
wider than tall, so only the width bound is discharged for the horizontal
sum. -/
theorem c5_layout_sum_and_positions_witness :
    (Shares.split Shares.empty [1, 2, 3] (availableWidth [1, 2, 3] 0 ⟨0, 0, 300, 100⟩)).sum
      + 0 * (([1, 2, 3].length - 1 : ℕ) : ℚ) = RectQ.width ⟨0, 0, 300, 100⟩ :=
  (c5_layout_sum_and_positions Shares.empty [1, 2, 3] 0 ⟨0, 0, 300, 100⟩
    (by decide)
    (by intro c _; norm_num [Shares.get, Shares.empty])).1
    (by norm_num [RectQ.width])

/-! ## Drop zones (src/container/linear.rs, lines 426-523) -/

/-- `before_rect` of `drop_zones`: a strip of the preview thickness at the
leading edge of the child's rectangle. -/
def beforeRect (dir : LinearDir) (th : ℚ) (r : RectQ) : RectQ :=
  match dir with
  | .Horizontal => ⟨r.minx, r.miny, r.minx + th, r.maxy⟩
  | .Vertical => ⟨r.minx, r.miny, r.maxx, r.miny + th⟩

/-- `between_rects` of `drop_zones`: a strip of the preview thickness centred
between two adjacent children (`Rect::from_center_size` around the midpoint
of `a.right_center()`/`b.left_center()`, resp. `a.center_bottom()`/`b.center_top()`). -/
def betweenRects (dir : LinearDir) (th : ℚ) (a b : RectQ) : RectQ :=
  match dir with
  | .Horizontal =>
    ⟨(a.maxx + b.minx) / 2 - th / 2,
     ((a.miny + a.maxy) / 2 + (b.miny + b.maxy) / 2) / 2 - RectQ.height a / 2,
     (a.maxx + b.minx) / 2 + th / 2,
     ((a.miny + a.maxy) / 2 + (b.miny + b.maxy) / 2) / 2 + RectQ.height a / 2⟩
  | .Vertical =>
    ⟨((a.minx + a.maxx) / 2 + (b.minx + b.maxx) / 2) / 2 - RectQ.width a / 2,
     (a.maxy + b.miny) / 2 - th / 2,
     ((a.minx + a.maxx) / 2 + (b.minx + b.maxx) / 2) / 2 + RectQ.width a / 2,
     (a.maxy + b.miny) / 2 + th / 2⟩

/-- `after_rect` of `linear_drop_zones`: a strip of the preview thickness at
the trailing edge of the child's rectangle. -/
def afterRectOf (dir : LinearDir) (th : ℚ) (r : RectQ) : RectQ :=
  match dir with
  | .Horizontal => ⟨r.maxx - th, r.miny, r.maxx, r.maxy⟩
  | .Vertical => ⟨r.minx, r.maxy - th, r.maxx, r.maxy⟩

/-- The `for (i, &child) in children.iter().enumerate()` loop of
`drop_zones`, threading `prev_rect` and `insertion_index` and collecting the
`add_drop_drect` calls in order.  Returns the collected zones together with
the final `prev_rect` and `insertion_index`. -/
def dzGo (betweenR : RectQ → RectQ → RectQ) (beforeR : RectQ → RectQ)
    (getRect : TileId → RectQ) (dragged : Option ℕ) :
    List TileId → ℕ → Option RectQ → ℕ → List (RectQ × ℕ) × Option RectQ × ℕ
  | [], _, prev, idx => ([], prev, idx)
  | c :: rest, i, none, idx =>
    if some i = dragged then
      ((getRect c, i)
          :: (dzGo betweenR beforeR getRect dragged rest (i + 1) (some (getRect c)) idx).1,
        (dzGo betweenR beforeR getRect dragged rest (i + 1) (some (getRect c)) idx).2)
    else
      ((beforeR (getRect c), 0)
          :: (dzGo betweenR beforeR getRect dragged rest (i + 1) (some (getRect c))
                (idx + 1)).1,
        (dzGo betweenR beforeR getRect dragged rest (i + 1) (some (getRect c))
          (idx + 1)).2)
  | c :: rest, i, some p, idx =>
    if some i = dragged then
      ((getRect c, i)
          :: (dzGo betweenR beforeR getRect dragged rest (i + 1) (some (getRect c)) idx).1,
        (dzGo betweenR beforeR getRect dragged rest (i + 1) (some (getRect c)) idx).2)
    else
      if some (i - 1) ≠ dragged then
        ((betweenR p (getRect c), idx)
            :: (dzGo betweenR beforeR getRect dragged rest (i + 1) (some (getRect c))
                  (idx + 1)).1,
          (dzGo betweenR beforeR getRect dragged rest (i + 1) (some (getRect c))
            (idx + 1)).2)
      else
        dzGo betweenR beforeR getRect dragged rest (i + 1) (some (getRect c)) (idx + 1)

/-- `drop_zones`: the loop over the children followed by the
"after the last child" zone (at `insertion_index + 1`) unless the last child
is the dragged one. -/
def dropZones (th : ℚ) (children : List TileId) (dragged : Option ℕ) (dir : LinearDir)
    (getRect : TileId → RectQ) (afterR : RectQ → RectQ) : List (RectQ × ℕ) :=
  match dzGo (betweenRects dir th) (beforeRect dir th) getRect dragged children 0 none 0 with
  | (zones, none, _) => zones
  | (zones, some lastRect, idx) =>
    if dragged ≠ some (children.length - 1) then zones ++ [(afterR lastRect, idx + 1)]
    else zones

/-- `linear_drop_zones`: fixed preview thickness `12`, the dragged index is
the position of the child for which `is_being_dragged` holds, and the
after-zone geometry is `after_rect`. -/
def linearDropZones (dragBool : TileId → Bool) (children : List TileId) (dir : LinearDir)
    (getRect : TileId → RectQ) : List (RectQ × ℕ) :=
  dropZones 12 children (children.findIdx? (fun c => dragBool c)) dir getRect
    (afterRectOf dir 12)

/-- Number of non-dragged children with index below `i` — the insertion
positions of the specification count only non-dragged children. -/
def cntND (dragged : Option ℕ) (i : ℕ) : ℕ :=
  (List.range i).countP (fun j => decide (some j ≠ dragged))

/-- The zones the (amended) specification predicts for child index `i`:
the dragged child's own rectangle at its position; a before-the-first-child
strip at position `0` when the first child is not dragged; a strip between
children `i-1` and `i` when neither is dragged, at the count of non-dragged
children before `i`. -/
def zoneAtP (betweenR : RectQ → RectQ → RectQ) (beforeR : RectQ → RectQ)
    (getRect : TileId → RectQ) (dragged : Option ℕ) (children : List TileId)
    (i : ℕ) : List (RectQ × ℕ) :=
  if some i = dragged then [(getRect (children.getD i 0), cntND dragged i)]
  else if i = 0 then [(beforeR (getRect (children.getD 0 0)), 0)]
  else if some (i - 1) = dragged then []
  else
    [(betweenR (getRect (children.getD (i - 1) 0)) (getRect (children.getD i 0)),
      cntND dragged i)]

/-- The full zone list the (amended) specification predicts: the per-index
zones in order, then an after-the-last-child strip at one past the count of
non-dragged children, unless the container is empty or the last child is the
dragged one. -/
def claimedZones (th : ℚ) (children : List TileId) (dragged : Option ℕ) (dir : LinearDir)
    (getRect : TileId → RectQ) (afterR : RectQ → RectQ) : List (RectQ × ℕ) :=
  ((List.range children.length).flatMap
      (zoneAtP (betweenRects dir th) (beforeRect dir th) getRect dragged children))
    ++ (if children.length ≠ 0 ∧ dragged ≠ some (children.length - 1) then
          [(afterR (getRect (children.getD (children.length - 1) 0)),
            cntND dragged children.length + 1)]
        else [])

/-- The `prev_rect` variable of the loop, as a function of how many children
have been processed. -/
def prevAt (getRect : TileId → RectQ) (children : List TileId) : ℕ → Option RectQ
  | 0 => none
  | k + 1 => some (getRect (children.getD k 0))

theorem cntND_succ (dragged : Option ℕ) (k : ℕ) :
    cntND dragged (k + 1) = cntND dragged k + (if some k = dragged then 0 else 1) := by
  unfold cntND
  rw [List.range_succ, List.countP_append]
  by_cases h : some k = dragged
  · simp [h]
  · simp [h]

theorem cntND_of_dragged (k : ℕ) (dragged : Option ℕ) (h : dragged = some k) :
    cntND dragged k = k := by
  unfold cntND
  have : ∀ j ∈ List.range k, (fun j => decide (some j ≠ dragged)) j = true := by
    intro j hj
    have hlt : j < k := List.mem_range.1 hj
    simp [h, Nat.ne_of_lt hlt]
  rw [List.countP_eq_length.2 this, List.length_range]

theorem range_drop_cons (n k : ℕ) (h : k < n) :
    (List.range n).drop k = k :: (List.range n).drop (k + 1) := by
  have hlen : k < (List.range n).length := by simpa using h
  have := drop_cons_getD 0 (List.range n) k hlen
  rw [this]
  congr 1
  rw [List.getD_eq_getElem?_getD]
  simp [List.getElem?_range h]

theorem dzGo_drop_spec (betweenR : RectQ → RectQ → RectQ) (beforeR : RectQ → RectQ)
    (getRect : TileId → RectQ) (dragged : Option ℕ) (children : List TileId) :
    ∀ (d k : ℕ), k + d = children.length →
      dzGo betweenR beforeR getRect dragged (children.drop k) k
          (prevAt getRect children k) (cntND dragged k)
        = (((List.range children.length).drop k).flatMap
              (zoneAtP betweenR beforeR getRect dragged children),
           prevAt getRect children children.length, cntND dragged children.length) := by
  intro d
  induction d with
  | zero =>
    intro k hk
    rw [Nat.add_zero] at hk
    subst hk
    have h1 : children.drop children.length = [] := List.drop_length _
    have h2 : (List.range children.length).drop children.length = [] := by simp
    rw [h1, h2]
    rfl
  | succ d ih =>
    intro k hk
    have hkn : k < children.length := by omega
    rw [drop_cons_getD 0 children k hkn, range_drop_cons children.length k hkn,
      List.flatMap_cons]
    have ih2 := ih (k + 1) (by omega)
    have hprev : prevAt getRect children (k + 1)
        = some (getRect (children.getD k 0)) := rfl
    rw [hprev] at ih2
    cases k with
    | zero =>
      have hp0 : prevAt getRect children 0 = none := rfl
      rw [hp0]
      by_cases hdr : some 0 = dragged
      · have hcntt : cntND dragged (0 + 1) = cntND dragged 0 := by
          rw [cntND_succ, if_pos hdr, Nat.add_zero]
        rw [hcntt] at ih2
        simp only [dzGo]
        rw [if_pos hdr, ih2]
        simp only [zoneAtP, if_pos hdr]
        rw [cntND_of_dragged 0 dragged hdr.symm]
        rfl
      · have hcntt : cntND dragged (0 + 1) = cntND dragged 0 + 1 := by
          rw [cntND_succ, if_neg hdr]
        rw [hcntt] at ih2
        simp only [dzGo]
        rw [if_neg hdr, ih2]
        simp only [zoneAtP, if_neg hdr, if_pos rfl]
        rfl
    | succ m =>
      have hpm : prevAt getRect children (m + 1)
          = some (getRect (children.getD m 0)) := rfl
      rw [hpm]
      by_cases hdr : some (m + 1) = dragged
      · have hcntt : cntND dragged (m + 1 + 1) = cntND dragged (m + 1) := by
          rw [cntND_succ, if_pos hdr, Nat.add_zero]
        rw [hcntt] at ih2
        simp only [dzGo]
        rw [if_pos hdr, ih2]
        simp only [zoneAtP, if_pos hdr]
        rw [cntND_of_dragged (m + 1) dragged hdr.symm]
        rfl
      · have hcntt : cntND dragged (m + 1 + 1) = cntND dragged (m + 1) + 1 := by
          rw [cntND_succ, if_neg hdr]
        rw [hcntt] at ih2
        simp only [dzGo]
        rw [if_neg hdr]
        have hm1 : m + 1 - 1 = m := rfl
        by_cases hdr2 : some m = dragged
        · have hcond : ¬ (some (m + 1 - 1) ≠ dragged) := by
            rw [hm1]
            exact not_not_intro hdr2
          rw [if_neg hcond, ih2]
          simp only [zoneAtP, if_neg hdr, if_neg (Nat.succ_ne_zero m), hm1,
            if_pos hdr2]
          simp
        · have hcond : some (m + 1 - 1) ≠ dragged := by
            rw [hm1]
            exact hdr2
          rw [if_pos hcond, ih2]
          simp only [zoneAtP, if_neg hdr, if_neg (Nat.succ_ne_zero m), hm1,
            if_neg hdr2]
          simp

theorem dropZones_eq_claimedZones (th : ℚ) (children : List TileId) (dragged : Option ℕ)
    (dir : LinearDir) (getRect : TileId → RectQ) (afterR : RectQ → RectQ) :
    dropZones th children dragged dir getRect afterR
      = claimedZones th children dragged dir getRect afterR := by
  have key := dzGo_drop_spec (betweenRects dir th) (beforeRect dir th) getRect dragged
    children children.length 0 (by omega)
  have hp0 : prevAt getRect children 0 = none := rfl
  have hc0 : cntND dragged 0 = 0 := rfl
  rw [List.drop_zero, List.drop_zero, hp0, hc0] at key
  rw [dropZones, key]
  cases children with
  | nil =>
    simp [claimedZones, prevAt]
  | cons c0 cs =>
    have hpn : prevAt getRect (c0 :: cs) (c0 :: cs).length
        = some (getRect ((c0 :: cs).getD ((c0 :: cs).length - 1) 0)) := by
      show prevAt getRect (c0 :: cs) (cs.length + 1) = _
      rfl
    rw [hpn]
    by_cases hdl : dragged = some ((c0 :: cs).length - 1)
    · subst hdl
      simp [claimedZones]
    · simp only [List.length_cons, Nat.add_sub_cancel] at hdl
      simp [claimedZones, hdl]

/-- C4 counterexample: two children, the first being dragged, horizontal
direction, thickness `12`, rectangles `[0,100]²` and `[100,200] × [0,100]`.
The code proposes only the dragged child's own rectangle (at position `0`)
and the after-last strip (at position `2`); the "before the first child"
strip required unconditionally by the claim is absent. -/
theorem c4_drop_zones_counterexample :
    dropZones 12 [10, 20] (some 0) LinearDir.Horizontal
        (fun t => if t = 10 then ⟨0, 0, 100, 100⟩ else ⟨100, 0, 200, 100⟩)
        (afterRectOf LinearDir.Horizontal 12)
      = [(⟨0, 0, 100, 100⟩, 0), (⟨188, 0, 200, 100⟩, 2)]
    ∧ (beforeRect LinearDir.Horizontal 12 ⟨0, 0, 100, 100⟩, 0)
        ∉ dropZones 12 [10, 20] (some 0) LinearDir.Horizontal
            (fun t => if t = 10 then ⟨0, 0, 100, 100⟩ else ⟨100, 0, 200, 100⟩)
            (afterRectOf LinearDir.Horizontal 12) := by
  have hdz : dropZones 12 [10, 20] (some 0) LinearDir.Horizontal
      (fun t => if t = 10 then ⟨0, 0, 100, 100⟩ else ⟨100, 0, 200, 100⟩)
      (afterRectOf LinearDir.Horizontal 12)
      = [(⟨0, 0, 100, 100⟩, 0), (⟨188, 0, 200, 100⟩, 2)] := by
    simp [dropZones, dzGo, afterRectOf]
    norm_num
  refine ⟨hdz, ?_⟩
  rw [hdz]
  simp [beforeRect, RectQ.mk.injEq]

/-- C4 (amended): the drop zones of a Linear container are exactly: the
dragged child's own rectangle at its index; a before-the-first-child strip
at position `0` unless the first child is the dragged one (in which case its
hole stands in for it); a strip between every adjacent pair of non-dragged
children at the count of non-dragged children before the pair's second
member; and an after-the-last-child strip at one past the count of
non-dragged children, unless the last child is dragged.  Dropping on the
after-last zone of a two-child no-drag horizontal container records
position `3`, which the (clamped) insertion maps to the end, yielding
`[old0, old1, dragged]`. -/
theorem c4_drop_zones_amended :
    (∀ (th : ℚ) (children : List TileId) (dragged : Option ℕ) (dir : LinearDir)
        (getRect : TileId → RectQ) (afterR : RectQ → RectQ),
      dropZones th children dragged dir getRect afterR
        = claimedZones th children dragged dir getRect afterR)
    ∧ (∀ (a b d : TileId) (getRect : TileId → RectQ),
        (dropZones 12 [a, b] none LinearDir.Horizontal getRect
            (afterRectOf LinearDir.Horizontal 12)).getLast?
          = some (afterRectOf LinearDir.Horizontal 12 (getRect b), 3)
        ∧ List.insertIdx (min 3 [a, b].length) d [a, b] = [a, b, d]) :=
  ⟨dropZones_eq_claimedZones, fun a b d getRect => ⟨rfl, rfl⟩⟩

/-! ## `Tree::move_tile` (src/tree.rs, lines 312-319 and 353-359) -/

/-- A tile: a pane or a container with its ordered child list.  For the
structural operations verified here only a container's child list matters
(`Container::retain` acts uniformly on all three container variants). -/
inductive TileSt where
  | pane
  | container (children : List TileId)
  deriving DecidableEq, Repr

/-- The `tiles` map of the store, modelled as an association list (so that
"a child of exactly one container" can be counted); well-formed stores have
distinct keys. -/
abbrev StoreM := List (TileId × TileSt)

/-- Per-entry effect of `container.retain(|child| child != remove_me)`. -/
def removeEntry (removeMe : TileId) (e : TileId × TileSt) : TileId × TileSt :=
  match e.2 with
  | .pane => e
  | .container cs => (e.1, .container (cs.filter (fun c => c ≠ removeMe)))

/-- `Tree::remove_tile_id_from_parent`: for every container in the store,
`container.retain(|child| child != remove_me)`. -/
def removeTileIdFromParent (store : StoreM) (removeMe : TileId) : StoreM :=
  store.map (removeEntry removeMe)

/-- Per-entry effect of the insertion at the target parent. -/
def insertEntry (parent : TileId) (pos : ℕ) (x : TileId) (e : TileId × TileSt) :
    TileId × TileSt :=
  if e.1 = parent then
    match e.2 with
    | .pane => e
    | .container cs => (e.1, .container (List.insertIdx (min pos cs.length) x cs))
  else e

/-- Modelled from the spec: `Tiles::insert` (its file, `tiles.rs`, is not
under `src/`) — the dragged tile is "inserted into the target parent at the
recorded position" (§4.3).  The recorded position can exceed the child count
(the after-last drop zone records one past the count), and scenario 5 of §8
requires such a drop to land at the end, so the position is clamped to the
child count. -/
def insertAtParent (store : StoreM) (parent : TileId) (pos : ℕ) (x : TileId) : StoreM :=
  store.map (insertEntry parent pos x)

/-- `Tree::move_tile`: `remove_tile_id_from_parent` then `tiles.insert`. -/
def moveTile (store : StoreM) (x parent : TileId) (pos : ℕ) : StoreM :=
  insertAtParent (removeTileIdFromParent store x) parent pos x

/-- How many child-list slots an entry contributes for `x`. -/
def occOf (x : TileId) (e : TileId × TileSt) : ℕ :=
  match e.2 with
  | .pane => 0
  | .container cs => cs.count x

/-- In how many container child-list slots of the store `x` occurs. -/
def childOccurrences (store : StoreM) (x : TileId) : ℕ :=
  (store.map (occOf x)).sum

theorem count_filter_ne (x : TileId) (cs : List TileId) :
    (cs.filter (fun c => c ≠ x)).count x = 0 := by
  rw [List.count_eq_zero]
  intro hmem
  rcases List.mem_filter.1 hmem with ⟨_, hx⟩
  simp at hx

theorem occOf_removeEntry (x : TileId) (e : TileId × TileSt) :
    occOf x (removeEntry x e) = 0 := by
  cases e with
  | mk k t =>
    cases t with
    | pane => rfl
    | container cs =>
      show (cs.filter (fun c => c ≠ x)).count x = 0
      exact count_filter_ne x cs

theorem childOccurrences_remove (store : StoreM) (x : TileId) :
    childOccurrences (removeTileIdFromParent store x) x = 0 := by
  unfold childOccurrences removeTileIdFromParent
  rw [List.map_map, List.sum_eq_zero]
  intro n hn
  rcases List.mem_map.1 hn with ⟨e, _, rfl⟩
  exact occOf_removeEntry x e

theorem childOccurrences_insert (store : StoreM) (parent : TileId) (pos : ℕ) (x : TileId)
    (pcs : List TileId)
    (hkeys : (store.map Prod.fst).Nodup)
    (hparent : (parent, TileSt.container pcs) ∈ store) :
    childOccurrences (insertAtParent store parent pos x) x
      = childOccurrences store x + 1 := by
  have hrw : ∀ (l : StoreM), childOccurrences (insertAtParent l parent pos x) x
      = (l.map (fun e => occOf x (insertEntry parent pos x e))).sum := by
    intro l
    unfold childOccurrences insertAtParent
    rw [List.map_map]
    rfl
  induction store with
  | nil => cases hparent
  | cons e rest ih =>
    rw [List.map_cons, List.nodup_cons] at hkeys
    rw [hrw, List.map_cons, List.sum_cons]
    by_cases hkey : e.1 = parent
    · have hrest : ∀ f ∈ rest, f.1 ≠ parent := by
        intro f hf hfp
        exact hkeys.1 (List.mem_map.2 ⟨f, hf, hfp.trans hkey.symm⟩)
      have hee : e = (parent, TileSt.container pcs) := by
        rcases List.mem_cons.1 hparent with h | h
        · exact h.symm
        · exact absurd rfl (hrest _ h)
      subst hee
      have hhead : occOf x (insertEntry parent pos x (parent, TileSt.container pcs))
          = (List.insertIdx (min pos pcs.length) x pcs).count x := by
        unfold insertEntry
        rw [if_pos rfl]
        rfl
      have hcnt : (List.insertIdx (min pos pcs.length) x pcs).count x
          = pcs.count x + 1 := by
        have hperm := List.perm_insertIdx x pcs (min_le_right pos pcs.length)
        rw [hperm.count_eq, List.count_cons_self]
      have htail : rest.map (fun f => occOf x (insertEntry parent pos x f))
          = rest.map (occOf x) := by
        apply List.map_congr_left
        intro f hf
        unfold insertEntry
        rw [if_neg (hrest f hf)]
      rw [hhead, hcnt, htail]
      unfold childOccurrences
      rw [List.map_cons, List.sum_cons]
      have hocc : occOf x (parent, TileSt.container pcs) = pcs.count x := rfl
      rw [hocc]
      omega
    · have hparent2 : (parent, TileSt.container pcs) ∈ rest := by
        rcases List.mem_cons.1 hparent with h | h
        · exact absurd (h ▸ rfl : e.1 = parent) hkey
        · exact h
      have hhead : occOf x (insertEntry parent pos x e) = occOf x e := by
        unfold insertEntry
        rw [if_neg hkey]
      have hih := ih hkeys.2 hparent2
      rw [hrw] at hih
      rw [hhead, hih]
      unfold childOccurrences
      rw [List.map_cons, List.sum_cons]
      omega

/-- C3: `move_tile` is exactly detach-from-all-parents followed by insertion
at the target parent/position; the detach is idempotent and a no-op on
stores not listing the tile; after the detach the tile occurs as a child
zero times, and after the whole move exactly once. -/
theorem c3_move_tile
    (store : StoreM) (x parent : TileId) (pos : ℕ) (pcs : List TileId)
    (hkeys : (store.map Prod.fst).Nodup)
    (hparent : (parent, TileSt.container pcs) ∈ store) :
    moveTile store x parent pos
      = insertAtParent (removeTileIdFromParent store x) parent pos x
    ∧ removeTileIdFromParent (removeTileIdFromParent store x) x
        = removeTileIdFromParent store x
    ∧ (childOccurrences store x = 0 → removeTileIdFromParent store x = store)
    ∧ childOccurrences (removeTileIdFromParent store x) x = 0
    ∧ childOccurrences (moveTile store x parent pos) x = 1 := by
  refine ⟨rfl, ?_, ?_, childOccurrences_remove store x, ?_⟩
  · unfold removeTileIdFromParent
    rw [List.map_map]
    apply List.map_congr_left
    intro e _
    show removeEntry x (removeEntry x e) = removeEntry x e
    cases e with
    | mk k t =>
      cases t with
      | pane => rfl
      | container cs =>
        show (k, TileSt.container ((cs.filter (fun c => c ≠ x)).filter (fun c => c ≠ x)))
          = (k, TileSt.container (cs.filter (fun c => c ≠ x)))
        rw [List.filter_filter]
        congr 1
        congr 1
        apply List.filter_congr
        intro c _
        simp
  · intro h0
    unfold childOccurrences at h0
    unfold removeTileIdFromParent
    have hall := List.sum_eq_zero_iff.1 h0
    conv_rhs => rw [← List.map_id store]
    apply List.map_congr_left
    intro e he
    cases e with
    | mk k t =>
      cases t with
      | pane => rfl
      | container cs =>
        have hc0 : cs.count x = 0 :=
          hall (cs.count x) (List.mem_map.2 ⟨(k, TileSt.container cs), he, rfl⟩)
        have hxn : x ∉ cs := List.count_eq_zero.1 hc0
        show (k, TileSt.container (cs.filter (fun c => c ≠ x))) = _
        have : cs.filter (fun c => c ≠ x) = cs := by
          apply List.filter_eq_self.2
          intro c hc
          simp only [ne_eq, decide_not, Bool.not_eq_true', decide_eq_false_iff_not]
          exact fun hcx => hxn (hcx ▸ hc)
        rw [this]
        rfl
  · unfold moveTile
    rw [childOccurrences_insert (removeTileIdFromParent store x) parent pos x
        (pcs.filter (fun c => c ≠ x)) ?_ ?_]
    · rw [childOccurrences_remove store x]
    · unfold removeTileIdFromParent
      rw [List.map_map]
      have : (Prod.fst ∘ removeEntry x) = Prod.fst := by
        funext e
        cases e with
        | mk k t => cases t with | pane => rfl | container cs => rfl
      rw [this]
      exact hkeys
    · unfold removeTileIdFromParent
      exact List.mem_map.2 ⟨(parent, TileSt.container pcs), hparent, rfl⟩

/-- Closed witness for `c3_move_tile`: move tile `4` out of container `3`
into container `0` at position `1`. -/
theorem c3_move_tile_witness :
    childOccurrences
        (moveTile [(0, TileSt.container [1, 2]), (1, TileSt.pane), (2, TileSt.pane),
          (3, TileSt.container [4]), (4, TileSt.pane)] 4 0 1) 4 = 1 :=
  (c3_move_tile [(0, TileSt.container [1, 2]), (1, TileSt.pane), (2, TileSt.pane),
      (3, TileSt.container [4]), (4, TileSt.pane)] 4 0 1 [1, 2]
    (by decide) (by decide)).2.2.2.2

/-! ## Simplification (src/tree.rs, lines 297-309; container simplify_children) -/

/-- The simplification policy flags of §6 that drive the recursive pass
(`all_panes_must_have_tabs` is applied by a separate pass in `Tree::ui`,
outside the simplification recursion). -/
structure SimpOptions where
  pruneEmptyContainers : Bool
  collapseSingleChildContainers : Bool

/-- `ContainerKind` (src/container/mod.rs, lines 21-34). -/
inductive ContainerKind where
  | Tabs
  | Horizontal
  | Vertical
  | Grid

/-- A tile subtree with children inlined, for the recursive simplification
pass. -/
inductive TileNode where
  | pane
  | cont (kind : ContainerKind) (children : List TileNode)

mutual

/-- Modelled from the spec: the recursive pass `Tiles::simplify` lives in
`tiles.rs`, which is not under `src/`.  §4.4: visit the tree bottom-up; each
child result is Keep, Remove ("child produced nothing / collapsed to
empty") or Replace ("a container with exactly one child collapses into that
child, per policy"); the flags of §6 control whether empty containers are
pruned and whether single-child containers collapse.  `none` is Remove,
`some t` with `t` different from the input is Replace. -/
def simplifyNode (o : SimpOptions) : TileNode → Option TileNode
  | .pane => some .pane
  | .cont k cs =>
    if o.pruneEmptyContainers = true ∧ (simplifyChildrenList o cs).length = 0 then none
    else if o.collapseSingleChildContainers = true
        ∧ (simplifyChildrenList o cs).length = 1 then
      (simplifyChildrenList o cs).head?
    else some (.cont k (simplifyChildrenList o cs))

/-- Modelled from the spec: the child traversal of the simplification pass
(the shape of `Container::simplify_children`, src/container/mod.rs lines
158-164: dropped children are removed from the list, replaced children are
substituted in place, order kept). -/
def simplifyChildrenList (o : SimpOptions) : List TileNode → List TileNode
  | [] => []
  | t :: ts =>
    match simplifyNode o t with
    | none => simplifyChildrenList o ts
    | some t2 => t2 :: simplifyChildrenList o ts

end

/-- `Tree::simplify` (src/tree.rs, lines 297-309): apply the pass to the
root; `Remove` clears the root, `Replace` installs the new root. -/
def treeSimplify (o : SimpOptions) (root : Option TileNode) : Option TileNode :=
  match root with
  | none => none
  | some r => simplifyNode o r

theorem simplifyChildrenList_fixed (o : SimpOptions) (l : List TileNode)
    (h : ∀ c ∈ l, simplifyNode o c = some c) : simplifyChildrenList o l = l := by
  induction l with
  | nil => rfl
  | cons t ts ih =>
    have ht := h t (List.mem_cons_self _ _)
    simp only [simplifyChildrenList, ht]
    rw [ih (fun c hc => h c (List.mem_cons_of_mem _ hc))]

theorem mem_simplifyChildrenList (o : SimpOptions) (l : List TileNode) (c2 : TileNode) :
    c2 ∈ simplifyChildrenList o l → ∃ c ∈ l, simplifyNode o c = some c2 := by
  induction l with
  | nil => intro h; cases h
  | cons t ts ih =>
    intro h
    cases hst : simplifyNode o t with
    | none =>
      simp only [simplifyChildrenList, hst] at h
      rcases ih h with ⟨c, hc, hsc⟩
      exact ⟨c, List.mem_cons_of_mem _ hc, hsc⟩
    | some t2 =>
      simp only [simplifyChildrenList, hst] at h
      rcases List.mem_cons.1 h with rfl | h2
      · exact ⟨t, List.mem_cons_self _ _, hst⟩
      · rcases ih h2 with ⟨c, hc, hsc⟩
        exact ⟨c, List.mem_cons_of_mem _ hc, hsc⟩

theorem simplifyNode_fix (o : SimpOptions) :
    ∀ (n : ℕ) (t : TileNode), sizeOf t ≤ n → ∀ t2, simplifyNode o t = some t2 →
      simplifyNode o t2 = some t2 := by
  intro n
  induction n with
  | zero =>
    intro t ht
    exfalso
    cases t <;> simp at ht
  | succ n ih =>
    intro t ht t2 h
    cases t with
    | pane =>
      have hp : t2 = TileNode.pane := by
        simp only [simplifyNode] at h
        exact (Option.some.inj h).symm
      subst hp
      simp [simplifyNode]
    | cont k cs =>
      have hmem : ∀ c2 ∈ simplifyChildrenList o cs, simplifyNode o c2 = some c2 := by
        intro c2 hc2
        rcases mem_simplifyChildrenList o cs c2 hc2 with ⟨c, hc, hsc⟩
        have hsz : sizeOf c ≤ n := by
          have h1 : sizeOf c < sizeOf cs := List.sizeOf_lt_of_mem hc
          have h2 : 1 + sizeOf k + sizeOf cs ≤ n + 1 := by simpa using ht
          omega
        exact ih c hsz c2 hsc
      have hfix : simplifyChildrenList o (simplifyChildrenList o cs)
          = simplifyChildrenList o cs := simplifyChildrenList_fixed o _ hmem
      simp only [simplifyNode] at h
      by_cases h1 : o.pruneEmptyContainers = true ∧ (simplifyChildrenList o cs).length = 0
      · rw [if_pos h1] at h
        cases h
      · rw [if_neg h1] at h
        by_cases h2 : o.collapseSingleChildContainers = true
            ∧ (simplifyChildrenList o cs).length = 1
        · rw [if_pos h2] at h
          exact hmem t2 (List.mem_of_mem_head? h)
        · rw [if_neg h2] at h
          have ht2 : t2 = TileNode.cont k (simplifyChildrenList o cs) :=
            (Option.some.inj h).symm
          subst ht2
          simp only [simplifyNode]
          rw [hfix, if_neg h1, if_neg h2]

/-- C7: simplification is idempotent — for every options bundle and every
tree, running the pass twice produces the same tree (root and all container
child lists) as running it once. -/
theorem c7_simplify_idempotent (o : SimpOptions) (root : Option TileNode) :
    treeSimplify o (treeSimplify o root) = treeSimplify o root := by
  cases root with
  | none => rfl
  | some r =>
    show treeSimplify o (simplifyNode o r) = simplifyNode o r
    cases h : simplifyNode o r with
    | none => rfl
    | some r2 =>
      show simplifyNode o r2 = some r2
      exact simplifyNode_fix o (sizeOf r) r le_rfl r2 h

/-! ## `Linear::simplify_children` and `Shares::replace_with`
(src/container/linear.rs, lines 24-28 and 333-343) -/

/-- `SimplifyAction` as consumed by `simplify_children`. -/
inductive SimplifyAction where
  | Keep
  | Remove
  | Replace (tile : TileId)
  deriving DecidableEq, Repr

/-- `Linear`, restricted to the fields `simplify_children` touches. -/
structure LinearM where
  children : List TileId
  dir : LinearDir
  shares : SharesM

/-- The `retain_mut` loop of `Linear::simplify_children`: `Remove` drops the
child, `Keep` keeps it, `Replace(new)` first moves the share
(`shares.replace_with(*child, new)`) and then substitutes the child id in
place. -/
def simplifyChildrenGo (f : TileId → SimplifyAction) :
    List TileId → SharesM → List TileId × SharesM
  | [], s => ([], s)
  | c :: cs, s =>
    match f c with
    | .Keep => (c :: (simplifyChildrenGo f cs s).1, (simplifyChildrenGo f cs s).2)
    | .Remove => simplifyChildrenGo f cs s
    | .Replace b =>
      (b :: (simplifyChildrenGo f cs (Shares.replaceWith s c b)).1,
        (simplifyChildrenGo f cs (Shares.replaceWith s c b)).2)

/-- `Linear::simplify_children`. -/
def LinearM.simplifyChildren (l : LinearM) (f : TileId → SimplifyAction) : LinearM :=
  ⟨(simplifyChildrenGo f l.children l.shares).1, l.dir,
    (simplifyChildrenGo f l.children l.shares).2⟩

theorem simplifyChildrenGo_keep (f : TileId → SimplifyAction) (ks : List TileId)
    (s : SharesM) (h : ∀ x ∈ ks, f x = SimplifyAction.Keep) :
    simplifyChildrenGo f ks s = (ks, s) := by
  induction ks with
  | nil => rfl
  | cons p ps ih =>
    simp only [simplifyChildrenGo, h p (List.mem_cons_self _ _)]
    rw [ih (fun x hx => h x (List.mem_cons_of_mem _ hx))]

theorem simplifyChildrenGo_split (f : TileId → SimplifyAction) (post : List TileId)
    (a b : TileId)
    (hpost : ∀ x ∈ post, f x = SimplifyAction.Keep)
    (hfa : f a = SimplifyAction.Replace b) :
    ∀ (pre : List TileId) (s : SharesM), (∀ x ∈ pre, f x = SimplifyAction.Keep) →
      simplifyChildrenGo f (pre ++ a :: post) s
        = (pre ++ b :: post, Shares.replaceWith s a b) := by
  intro pre
  induction pre with
  | nil =>
    intro s _
    simp only [List.nil_append, simplifyChildrenGo, hfa]
    rw [simplifyChildrenGo_keep f post _ hpost]
  | cons p ps ih =>
    intro s hpre
    simp only [List.cons_append, simplifyChildrenGo,
      hpre p (List.mem_cons_self _ _), List.append_eq]
    rw [ih s (fun x hx => hpre x (List.mem_cons_of_mem _ hx))]

/-- C8: when `simplify_children` replaces child `a` by `b` in a Linear
container, the child list has `b` in `a`'s slot, the shares map is exactly
`replace_with a b`: an explicitly stored weight of `a` is moved to `b` (so
`b`'s effective weight is `a`'s prior one), an unstored `a` leaves the map
unchanged (`b`'s own stored weight, if any, then determines its weight), and
`a`'s stale entry never remains. -/
theorem c8_replace_carries_share
    (l : LinearM) (f : TileId → SimplifyAction) (pre post : List TileId) (a b : TileId)
    (hchildren : l.children = pre ++ a :: post)
    (hpre : ∀ x ∈ pre, f x = SimplifyAction.Keep)
    (hpost : ∀ x ∈ post, f x = SimplifyAction.Keep)
    (hfa : f a = SimplifyAction.Replace b) :
    (l.simplifyChildren f).children = pre ++ b :: post
    ∧ (l.simplifyChildren f).shares = Shares.replaceWith l.shares a b
    ∧ (∀ w, l.shares a = some w →
        Shares.get (l.simplifyChildren f).shares b = w
        ∧ (l.simplifyChildren f).shares b = some w
        ∧ Shares.get (l.simplifyChildren f).shares b = Shares.get l.shares a)
    ∧ (l.shares a = none → (l.simplifyChildren f).shares = l.shares)
    ∧ (a ≠ b → (l.simplifyChildren f).shares a = none) := by
  have hgo := simplifyChildrenGo_split f post a b hpost hfa pre l.shares hpre
  have hch : (l.simplifyChildren f).children = pre ++ b :: post := by
    unfold LinearM.simplifyChildren
    rw [hchildren, hgo]
  have hsh : (l.simplifyChildren f).shares = Shares.replaceWith l.shares a b := by
    unfold LinearM.simplifyChildren
    rw [hchildren, hgo]
  refine ⟨hch, hsh, fun w hw => ?_, fun hn => ?_, fun hne => ?_⟩
  · rw [hsh]
    unfold Shares.replaceWith
    rw [hw]
    refine ⟨Shares.get_set_self _ _ _, ?_, ?_⟩
    · show (if b = b then some w else Shares.removeKey l.shares a b) = some w
      rw [if_pos rfl]
    · rw [Shares.get_set_self]
      unfold Shares.get
      rw [hw]
      rfl
  · rw [hsh]
    unfold Shares.replaceWith
    rw [hn]
  · rw [hsh]
    unfold Shares.replaceWith
    cases hw : l.shares a with
    | none => exact hw
    | some w =>
      show (if a = b then some w else Shares.removeKey l.shares a a) = none
      rw [if_neg hne]
      unfold Shares.removeKey
      rw [if_pos rfl]

/-- Closed witness for `c8_replace_carries_share`: replace child `1`
(stored weight `5`) by `3` in a horizontal container `[1, 2]`. -/
theorem c8_replace_carries_share_witness :
    (LinearM.simplifyChildren
        ⟨[1, 2], LinearDir.Horizontal, fun x => if x = 1 then some 5 else none⟩
        (fun c => if c = 1 then SimplifyAction.Replace 3 else SimplifyAction.Keep)).children
      = [] ++ 3 :: [2] :=
  (c8_replace_carries_share
      ⟨[1, 2], LinearDir.Horizontal, fun x => if x = 1 then some 5 else none⟩
      (fun c => if c = 1 then SimplifyAction.Replace 3 else SimplifyAction.Keep)
      [] [2] 1 3 rfl (by decide) (by decide) rfl).1

/-! ## `Tree::tile_ui` (src/tree.rs, lines 182-228) -/

/-- The fields of `DropContext` that `tile_ui` reads or writes. -/
structure DropCtxM where
  enabled : Bool
  draggedTileId : Option TileId
  deriving DecidableEq, Repr

/-- `Tree::tile_ui`, with the per-tile body (`drop_context.on_tile` followed
by `Behavior::pane_ui` or `Container::ui`, which may mutate the rest of the
store, the drop context and the tile itself) abstracted as `process`; the
theorems below hold for every such body.  The source's order is kept: the
rect lookup comes first ("NOTE: important that we get the rect and tile in
two steps"), then the tile is removed from the store; the enabled flag is
read before being cleared for the dragged tile, and restored after the tile
is reinserted. -/
def tileUi {τ : Type} (rects : TileId → Option RectQ)
    (process : (TileId → Option τ) → DropCtxM → τ → (TileId → Option τ) × DropCtxM × τ)
    (tiles : TileId → Option τ) (dc : DropCtxM) (tileId : TileId) :
    (TileId → Option τ) × DropCtxM :=
  match rects tileId with
  | none => (tiles, dc)
  | some _ =>
    match tiles tileId with
    | none => (tiles, dc)
    | some tile =>
      let dc1 := if some tileId = dc.draggedTileId then { dc with enabled := false } else dc
      let r := process (fun x => if x = tileId then none else tiles x) dc1 tile
      (fun x => if x = tileId then some r.2.2 else r.1 x,
        { r.2.1 with enabled := dc.enabled })

/-- C9: for every tile body, `tile_ui` on a tile with no rect this frame or
absent from the store returns without changing the store or the drop
context; on a present tile, the tile is reinserted before returning (the id
is mapped in the resulting store) and the drop context's enabled flag is
restored to its prior value. -/
theorem c9_tile_ui (τ : Type) (rects : TileId → Option RectQ)
    (process : (TileId → Option τ) → DropCtxM → τ → (TileId → Option τ) × DropCtxM × τ)
    (tiles : TileId → Option τ) (dc : DropCtxM) (tileId : TileId) :
    ((rects tileId = none ∨ tiles tileId = none) →
      tileUi rects process tiles dc tileId = (tiles, dc))
    ∧ (∀ tile, tiles tileId = some tile →
        ((tileUi rects process tiles dc tileId).1 tileId).isSome = true
        ∧ (tileUi rects process tiles dc tileId).2.enabled = dc.enabled) := by
  constructor
  · intro h
    rcases h with h | h
    · unfold tileUi
      rw [h]
    · unfold tileUi
      cases hr : rects tileId with
      | none => rfl
      | some r0 => rw [h]
  · intro tile htile
    cases hr : rects tileId with
    | none =>
      constructor
      · show ((tileUi rects process tiles dc tileId).1 tileId).isSome = true
        simp only [tileUi, hr]
        rw [htile]
        rfl
      · show (tileUi rects process tiles dc tileId).2.enabled = dc.enabled
        simp only [tileUi, hr]
    | some r0 =>
      constructor
      · show ((tileUi rects process tiles dc tileId).1 tileId).isSome = true
        simp only [tileUi, hr, htile]
        simp
      · show (tileUi rects process tiles dc tileId).2.enabled = dc.enabled
        simp only [tileUi, hr, htile]

/-- Closed witness for `c9_tile_ui`: an identity body on a one-tile store. -/
theorem c9_tile_ui_witness :
    ((tileUi (fun _ => some ⟨0, 0, 1, 1⟩) (fun t d x => (t, d, x))
        (fun x => if x = 0 then some 7 else none) ⟨true, none⟩ 0).1 0).isSome = true :=
  ((c9_tile_ui ℕ (fun _ => some ⟨0, 0, 1, 1⟩) (fun t d x => (t, d, x))
      (fun x => if x = 0 then some 7 else none) ⟨true, none⟩ 0).2 7 rfl).1

/-! ## `Tree::dragged_id` (src/tree.rs, lines 142-144 and 322-346) -/

/-- The parts of `Tree` that `dragged_id` reads: the root and the key set of
the tile store. -/
structure TreeM where
  root : Option TileId
  tileKeys : List TileId
  deriving DecidableEq, Repr

/-- `Tree::is_root`: `self.root == Some(tile)`. -/
def TreeM.isRoot (tr : TreeM) (t : TileId) : Bool := decide (tr.root = some t)

/-- The key loop of `dragged_id`: skip the root; for the first remaining
tile marked as dragged, abort (returning `None`) when escape is pressed,
else return it. -/
def draggedIdGo (escapePressed : Bool) (beingDragged : TileId → Bool) (tr : TreeM) :
    List TileId → Option TileId
  | [] => none
  | t :: ts =>
    if tr.isRoot t then draggedIdGo escapePressed beingDragged tr ts
    else if beingDragged t then
      if escapePressed then none else some t
    else draggedIdGo escapePressed beingDragged tr ts

/-- `Tree::dragged_id`: `None` unless a drag is possible at all, else the
key loop over the store. -/
def draggedId (possibleDrag escapePressed : Bool) (beingDragged : TileId → Bool)
    (tr : TreeM) : Option TileId :=
  if possibleDrag then draggedIdGo escapePressed beingDragged tr tr.tileKeys
  else none

theorem draggedIdGo_not_root (escapePressed : Bool) (beingDragged : TileId → Bool)
    (tr : TreeM) :
    ∀ (keys : List TileId) (tid : TileId),
      draggedIdGo escapePressed beingDragged tr keys = some tid →
      tr.isRoot tid = false := by
  intro keys
  induction keys with
  | nil => intro tid h; cases h
  | cons t ts ih =>
    intro tid h
    rw [draggedIdGo] at h
    by_cases hr : tr.isRoot t = true
    · rw [if_pos hr] at h
      exact ih tid h
    · rw [if_neg hr] at h
      by_cases hb : beingDragged t = true
      · rw [if_pos hb] at h
        cases hesc : escapePressed with
        | true => rw [hesc, if_pos rfl] at h; cases h
        | false =>
          rw [hesc] at h
          simp at h
          subst h
          exact Bool.not_eq_true _ ▸ hr
      · rw [if_neg hb] at h
        exact ih tid h

/-- C10: whenever `dragged_id` returns `Some(id)`, `is_root id` is false —
the root is excluded from drag detection even when the drag memory marks it
as dragged. -/
theorem c10_dragged_id_not_root (possibleDrag escapePressed : Bool)
    (beingDragged : TileId → Bool) (tr : TreeM) (tid : TileId)
    (h : draggedId possibleDrag escapePressed beingDragged tr = some tid) :
    tr.isRoot tid = false := by
  unfold draggedId at h
  by_cases hp : possibleDrag = true
  · rw [if_pos hp] at h
    exact draggedIdGo_not_root escapePressed beingDragged tr tr.tileKeys tid h
  · rw [if_neg hp] at h
    cases h

/-- Closed witness for `c10_dragged_id_not_root`: root `1`, keys `[1, 5]`,
tile `5` marked as dragged. -/
theorem c10_dragged_id_not_root_witness :
    TreeM.isRoot ⟨some 1, [1, 5]⟩ 5 = false :=
  c10_dragged_id_not_root true false (fun t => t == 5) ⟨some 1, [1, 5]⟩ 5 (by decide)

end EguiTiles
